import Mathlib

/- Verification of the ordered-set `Tree` contract exercised by the test
suite in `src/TreeTest.cpp`.  The `Tree` implementation itself
(`TestedTreeType.h`) is not among the repository sources, so the data
structure is modelled from the specification: an AVL-style self-balancing
binary search tree over `int` keys (embedded as `Int`), with a cached
height per node and a cached element count in the tree object. -/

namespace TreesTest

/-- Modelled from the spec: the missing `Tree` implementation's node type.
A node holds one key, owning links to an optional left and right child,
and a balance metadata field (the cached subtree height).  Parent
back-links are an imperative device for the rebalancing walk and are
represented here by the recursive rebalancing structure itself. -/
inductive Node : Type where
  | nil : Node
  | node (left : Node) (key : Int) (height : Nat) (right : Node) : Node
deriving DecidableEq

/-- Modelled from the spec: the cached height of a subtree, `0` for an
absent child.  Reading it is `O(1)`. -/
def Node.height : Node → Nat
  | .nil => 0
  | .node _ _ h _ => h

/-- Modelled from the spec: build a node from two children, recomputing
its cached height (one more than the taller child). -/
def Node.build (l : Node) (k : Int) (r : Node) : Node :=
  .node l k (max l.height r.height + 1) r

/-- Modelled from the spec: rotate-left, local pointer surgery that
re-parents the links and recomputes the heights of the nodes whose
subtree shape changed, preserving the in-order key sequence. -/
def Node.rotateLeft : Node → Node
  | .node l k _ (.node rl rk _ rr) => Node.build (Node.build l k rl) rk rr
  | t => t

/-- Modelled from the spec: rotate-right, mirror image of rotate-left. -/
def Node.rotateRight : Node → Node
  | .node (.node ll lk _ lr) k _ r => Node.build ll lk (Node.build lr k r)
  | t => t

/-- Modelled from the spec: restore the balance invariant at one node of
the rebalancing path.  When one side is two levels taller, a single
rotation is applied, or a double rotation (composed of two single
rotations) when the taller side's child leans the opposite direction. -/
def Node.balanceNode (l : Node) (k : Int) (r : Node) : Node :=
  if l.height + 1 < r.height then
    match r with
    | .node rl _ _ rr =>
      if rr.height < rl.height
      then Node.rotateLeft (Node.build l k (Node.rotateRight r))
      else Node.rotateLeft (Node.build l k r)
    | .nil => Node.build l k r
  else if r.height + 1 < l.height then
    match l with
    | .node ll _ _ lr =>
      if ll.height < lr.height
      then Node.rotateRight (Node.build (Node.rotateLeft l) k r)
      else Node.rotateRight (Node.build l k r)
    | .nil => Node.build l k r
  else Node.build l k r

/-- Modelled from the spec: `contains` as a pure binary-search descent,
moving left or right by comparison, true on an exact match, false on
reaching an absent child. -/
def Node.containsKey : Node → Int → Bool
  | .nil, _ => false
  | .node l x _ r, k =>
    if k < x then l.containsKey k
    else if x < k then r.containsKey k
    else true

/-- Modelled from the spec: insertion.  A present key leaves the tree
unchanged and reports `false`; otherwise a fresh leaf is attached at the
descent position and the path back up is rebalanced. -/
def Node.insert : Node → Int → Node × Bool
  | .nil, k => (Node.build .nil k .nil, true)
  | t@(.node l x _ r), k =>
    if k < x then
      let p := l.insert k
      if p.2 then (Node.balanceNode p.1 x r, true) else (t, false)
    else if x < k then
      let p := r.insert k
      if p.2 then (Node.balanceNode l x p.1, true) else (t, false)
    else (t, false)

/-- Modelled from the spec: locate and splice out the leftmost (minimal)
node of a non-empty subtree, rebalancing the path back up; used for the
two-child case of removal (in-order successor extraction). -/
def Node.delMin : Node → Option (Int × Node)
  | .nil => none
  | .node l x _ r =>
    match l.delMin with
    | none => some (x, r)
    | some (m, l') => some (m, Node.balanceNode l' x r)

/-- Modelled from the spec: removal.  An absent key leaves the tree
unchanged and reports `false`.  A node with an absent child is spliced
out directly; a node with two children receives its in-order successor's
key and the successor node is spliced out instead.  The path back up is
rebalanced, possibly at several levels. -/
def Node.remove : Node → Int → Node × Bool
  | .nil, _ => (.nil, false)
  | t@(.node l x _ r), k =>
    if k < x then
      let p := l.remove k
      if p.2 then (Node.balanceNode p.1 x r, true) else (t, false)
    else if x < k then
      let p := r.remove k
      if p.2 then (Node.balanceNode l x p.1, true) else (t, false)
    else
      match l with
      | .nil => (r, true)
      | _ =>
        match r.delMin with
        | none => (l, true)
        | some (m, r') => (Node.balanceNode l m r', true)

/-- Modelled from the spec: `values()` by in-order traversal (left
subtree, node, right subtree), a fresh sequence on each call. -/
def Node.toList : Node → List Int
  | .nil => []
  | .node l x _ r => l.toList ++ x :: r.toList

/-- Number of nodes actually reachable in a subtree (used to state the
count-consistency invariant; the tree object caches this). -/
def Node.count : Node → Nat
  | .nil => 0
  | .node l _ _ r => l.count + r.count + 1

/-- Structural height of a subtree, computed rather than cached (used to
state the height bound independently of the cached metadata). -/
def Node.realHeight : Node → Nat
  | .nil => 0
  | .node l _ _ r => max l.realHeight r.realHeight + 1

/-- Modelled from the spec: the `Tree` object, owning the root node
(absent when empty) and maintaining a cached element count. -/
structure Tree where
  root : Node
  card : Nat
deriving DecidableEq

/-- Modelled from the spec: the default-constructed empty tree. -/
def Tree.new : Tree := ⟨.nil, 0⟩

/-- Modelled from the spec: `size()`, the cached element count, `O(1)`. -/
def Tree.size (t : Tree) : Nat := t.card

/-- Modelled from the spec: `empty()`, true iff `size() == 0`. -/
def Tree.empty (t : Tree) : Bool := t.size == 0

/-- Modelled from the spec: `contains(key)`. -/
def Tree.contains (t : Tree) (k : Int) : Bool := t.root.containsKey k

/-- Modelled from the spec: `insert(key)`, returning the updated tree and
the boolean result; the count cache is incremented on success. -/
def Tree.insert (t : Tree) (k : Int) : Tree × Bool :=
  let p := t.root.insert k
  if p.2 then (⟨p.1, t.card + 1⟩, true) else (t, false)

/-- Modelled from the spec: `remove(key)`, returning the updated tree and
the boolean result; the count cache is decremented on success. -/
def Tree.remove (t : Tree) (k : Int) : Tree × Bool :=
  let p := t.root.remove k
  if p.2 then (⟨p.1, t.card - 1⟩, true) else (t, false)

/-- Modelled from the spec: `values()`, the ascending enumeration of all
stored keys. -/
def Tree.values (t : Tree) : List Int := t.root.toList

/-- One operation of the tested interface (the mutators and the query the
test harness interleaves). -/
inductive Op where
  | insert (k : Int)
  | remove (k : Int)
  | contains (k : Int)
deriving DecidableEq

/-- Apply one operation, returning the resulting tree and the operation's
boolean result (`contains` leaves the tree as is). -/
def Tree.applyOp (t : Tree) : Op → Tree × Bool
  | .insert k => t.insert k
  | .remove k => t.remove k
  | .contains k => (t, t.contains k)

/-- Run a sequence of operations, returning the final tree. -/
def Tree.runOps (t : Tree) : List Op → Tree
  | [] => t
  | o :: os => ((t.applyOp o).1).runOps os

/-- The observable trace of a run: each operation's boolean result paired
with `size()` after that step. -/
def Tree.trace (t : Tree) : List Op → List (Bool × Nat)
  | [] => []
  | o :: os => ((t.applyOp o).2, (t.applyOp o).1.size) :: ((t.applyOp o).1).trace os

namespace RefSet

/-- Modelled from the spec: the reference ordered-set (`std::set`) that
the harness runs alongside the tree, embedded as its sorted ascending
list of elements.  Insertion returns the new contents and whether the
element was actually inserted. -/
def insert : List Int → Int → List Int × Bool
  | [], k => ([k], true)
  | x :: xs, k =>
    if k < x then (k :: x :: xs, true)
    else if x < k then
      let p := insert xs k
      (x :: p.1, p.2)
    else (x :: xs, false)

/-- Modelled from the spec: reference erasure, returning the new contents
and whether an element was actually erased. -/
def remove : List Int → Int → List Int × Bool
  | [], _ => ([], false)
  | x :: xs, k =>
    if k < x then (x :: xs, false)
    else if x < k then
      let p := remove xs k
      (x :: p.1, p.2)
    else (xs, true)

/-- Modelled from the spec: reference membership. -/
def contains (s : List Int) (k : Int) : Bool := decide (k ∈ s)

/-- Reference counterpart of `Tree.applyOp`. -/
def applyOp (s : List Int) : Op → List Int × Bool
  | .insert k => RefSet.insert s k
  | .remove k => RefSet.remove s k
  | .contains k => (s, RefSet.contains s k)

/-- Reference counterpart of `Tree.runOps`. -/
def runOps (s : List Int) : List Op → List Int
  | [] => s
  | o :: os => RefSet.runOps (RefSet.applyOp s o).1 os

/-- Reference counterpart of `Tree.trace` (size is the list length). -/
def trace (s : List Int) : List Op → List (Bool × Nat)
  | [] => []
  | o :: os =>
    ((RefSet.applyOp s o).2, (RefSet.applyOp s o).1.length)
      :: RefSet.trace (RefSet.applyOp s o).1 os

end RefSet

/-- Count of successful inserts and successful removes over a run (the
bookkeeping the performance test keeps implicitly through the reference
set). -/
def countSucc : Tree → List Op → Nat × Nat
  | _, [] => (0, 0)
  | t, o :: os =>
    let p := t.applyOp o
    let c := countSucc p.1 os
    match o, p.2 with
    | .insert _, true => (c.1 + 1, c.2)
    | .remove _, true => (c.1, c.2 + 1)
    | _, _ => c

/-- One observer (const) operation of the tested interface. -/
inductive ObsOp where
  | empty
  | size
  | contains (k : Int)
  | values
deriving DecidableEq

/-- Result of an observer operation. -/
inductive ObsOut where
  | bool (x : Bool)
  | nat (x : Nat)
  | list (xs : List Int)
deriving DecidableEq

/-- Apply one observer operation; the tree component of the result is the
state of the tree after the call. -/
def Tree.applyObs (t : Tree) : ObsOp → Tree × ObsOut
  | .empty => (t, .bool t.empty)
  | .size => (t, .nat t.size)
  | .contains k => (t, .bool (t.contains k))
  | .values => (t, .list t.values)

/-- Run a sequence of observer operations, returning the final tree
state. -/
def Tree.runObs (t : Tree) : List ObsOp → Tree
  | [] => t
  | o :: os => ((t.applyObs o).1).runObs os

/-- The AVL shape invariant: every cached height is correct and every
node's children differ in height by at most one. -/
def Node.WF : Node → Prop
  | .nil => True
  | .node l _ h r =>
      l.WF ∧ r.WF ∧ h = max l.height r.height + 1 ∧
      l.height ≤ r.height + 1 ∧ r.height ≤ l.height + 1

/-- The ordering invariant: the in-order enumeration is strictly
ascending (equivalently, binary-search ordering holds at every node). -/
def Node.Ordered (t : Node) : Prop := t.toList.Sorted (· < ·)

/-- The full tree invariant: shape, order, and count-cache consistency. -/
def Tree.Inv (t : Tree) : Prop :=
  t.root.WF ∧ t.root.Ordered ∧ t.card = t.root.toList.length

@[simp] lemma Node.height_nil : Node.height .nil = 0 := rfl

@[simp] lemma Node.height_node (l : Node) (k : Int) (h : Nat) (r : Node) :
    Node.height (.node l k h r) = h := rfl

@[simp] lemma Node.height_build (l : Node) (k : Int) (r : Node) :
    (Node.build l k r).height = max l.height r.height + 1 := rfl

@[simp] lemma Node.toList_nil : Node.toList .nil = [] := rfl

@[simp] lemma Node.toList_node (l : Node) (k : Int) (h : Nat) (r : Node) :
    Node.toList (.node l k h r) = l.toList ++ k :: r.toList := rfl

@[simp] lemma Node.toList_build (l : Node) (k : Int) (r : Node) :
    (Node.build l k r).toList = l.toList ++ k :: r.toList := rfl

lemma Node.toList_rotateLeft (t : Node) : t.rotateLeft.toList = t.toList := by
  match t with
  | .nil => rfl
  | .node l k h .nil => rfl
  | .node l k h (.node rl rk rh rr) => simp [Node.rotateLeft]

lemma Node.toList_rotateRight (t : Node) : t.rotateRight.toList = t.toList := by
  match t with
  | .nil => rfl
  | .node .nil k h r => rfl
  | .node (.node ll lk lh lr) k h r => simp [Node.rotateRight]

lemma Node.toList_balanceNode (l : Node) (k : Int) (r : Node) :
    (Node.balanceNode l k r).toList = l.toList ++ k :: r.toList := by
  rcases r with _ | ⟨rl, rk, rh, rr⟩ <;> rcases l with _ | ⟨ll, lk, lh, lr⟩ <;>
    simp only [Node.balanceNode] <;>
    split_ifs <;>
    simp [Node.toList_rotateLeft, Node.toList_rotateRight]

@[simp] lemma Node.WF_nil : Node.WF .nil := trivial

lemma Node.WF_node {l : Node} {k : Int} {h : Nat} {r : Node} :
    Node.WF (.node l k h r) ↔
      l.WF ∧ r.WF ∧ h = max l.height r.height + 1 ∧
      l.height ≤ r.height + 1 ∧ r.height ≤ l.height + 1 := Iff.rfl

lemma Node.balanceNode_spec (l : Node) (k : Int) (r : Node) (hl : l.WF) (hr : r.WF)
    (hd1 : l.height ≤ r.height + 2) (hd2 : r.height ≤ l.height + 2) :
    (Node.balanceNode l k r).WF ∧
    max l.height r.height ≤ (Node.balanceNode l k r).height ∧
    (Node.balanceNode l k r).height ≤ max l.height r.height + 1 ∧
    (l.height ≤ r.height + 1 → r.height ≤ l.height + 1 →
      (Node.balanceNode l k r).height = max l.height r.height + 1) := by
  unfold Node.balanceNode
  split
  · rename_i h1
    rcases r with _ | ⟨rl, rk, rh, rr⟩
    · simp only [Node.height_nil] at h1; omega
    · rw [Node.WF_node] at hr
      obtain ⟨hrl, hrr, hrh, hb1, hb2⟩ := hr
      simp only [Node.height_node] at h1 hd1 hd2 ⊢
      split
      · rename_i h2
        rcases rl with _ | ⟨a, p, ah, b⟩
        · simp only [Node.height_nil] at h2; omega
        · rw [Node.WF_node] at hrl
          obtain ⟨ha, hb', hah, hab1, hab2⟩ := hrl
          simp only [Node.height_node] at h2 hrh hb1 hb2 ⊢
          simp only [Node.rotateRight, Node.rotateLeft, Node.build,
            Node.height_node, Node.height_nil]
          refine ⟨⟨⟨hl, ha, ?_, ?_, ?_⟩, ⟨hb', hrr, ?_, ?_, ?_⟩, ?_, ?_, ?_⟩,
            ?_, ?_, ?_⟩ <;> (try simp only [Node.height_node, Node.height_nil]) <;> omega
      · rename_i h2
        try simp only [Node.height_node] at hrh hb1 hb2
        simp only [Node.rotateLeft, Node.build, Node.height_node, Node.height_nil]
        refine ⟨⟨⟨hl, hrl, ?_, ?_, ?_⟩, hrr, ?_, ?_, ?_⟩, ?_, ?_, ?_⟩ <;> (try simp only [Node.height_node, Node.height_nil]) <;> omega
  · split
    · rename_i h1 h2
      rcases l with _ | ⟨ll, lk, lh, lr⟩
      · simp only [Node.height_nil] at h2; omega
      · rw [Node.WF_node] at hl
        obtain ⟨hll, hlr, hlh, hb1, hb2⟩ := hl
        simp only [Node.height_node] at h1 h2 hd1 hd2 ⊢
        split
        · rename_i h3
          rcases lr with _ | ⟨a, p, ah, b⟩
          · simp only [Node.height_nil] at h3; omega
          · rw [Node.WF_node] at hlr
            obtain ⟨ha, hb', hah, hab1, hab2⟩ := hlr
            simp only [Node.height_node] at h3 hlh hb1 hb2 ⊢
            simp only [Node.rotateLeft, Node.rotateRight, Node.build,
              Node.height_node, Node.height_nil]
            refine ⟨⟨⟨hll, ha, ?_, ?_, ?_⟩, ⟨hb', hr, ?_, ?_, ?_⟩, ?_, ?_, ?_⟩,
              ?_, ?_, ?_⟩ <;> (try simp only [Node.height_node, Node.height_nil, Node.height_build]) <;> omega
        · rename_i h3
          try simp only [Node.height_node] at hlh hb1 hb2
          simp only [Node.rotateRight, Node.build, Node.height_node, Node.height_nil]
          refine ⟨⟨hll, ⟨hlr, hr, ?_, ?_, ?_⟩, ?_, ?_, ?_⟩, ?_, ?_, ?_⟩ <;> (try simp only [Node.height_node, Node.height_nil]) <;> omega
    · rename_i h1 h2
      simp only [Node.height_build]
      refine ⟨⟨hl, hr, ?_, ?_, ?_⟩, ?_, ?_, ?_⟩ <;>
        first
          | omega
          | exact fun _ _ => trivial

lemma Node.balanceNode_cases (l : Node) (k : Int) (r : Node) (hl : l.WF) (hr : r.WF)
    (hd1 : l.height ≤ r.height + 2) (hd2 : r.height ≤ l.height + 2) :
    (Node.balanceNode l k r).WF ∧
    ((Node.balanceNode l k r).height = max l.height r.height + 1 ∨
     (max l.height r.height ≤ (Node.balanceNode l k r).height ∧
      (Node.balanceNode l k r).height ≤ max l.height r.height + 1 ∧
      (r.height + 2 ≤ l.height ∨ l.height + 2 ≤ r.height))) := by
  obtain ⟨W, B1, B2, B3⟩ := Node.balanceNode_spec l k r hl hr hd1 hd2
  refine ⟨W, ?_⟩
  rcases le_or_lt l.height (r.height + 1) with hc1 | hc1
  · rcases le_or_lt r.height (l.height + 1) with hc2 | hc2
    · exact Or.inl (B3 hc1 hc2)
    · exact Or.inr ⟨B1, B2, Or.inr (by omega)⟩
  · exact Or.inr ⟨B1, B2, Or.inl (by omega)⟩

lemma Node.insert_wf (t : Node) (k : Int) (h : t.WF) :
    (t.insert k).1.WF ∧ t.height ≤ (t.insert k).1.height ∧
      (t.insert k).1.height ≤ t.height + 1 := by
  induction t with
  | nil => simp [Node.insert, Node.build, Node.WF, Node.height]
  | node l x hh r ihl ihr =>
    rw [Node.WF_node] at h
    obtain ⟨hl, hr, hhh, hb1, hb2⟩ := h
    obtain ⟨W1, A1, A2⟩ := ihl hl
    obtain ⟨W2, B1, B2⟩ := ihr hr
    have hN : Node.height (Node.node l x hh r) = hh := rfl
    simp only [Node.insert]
    split <;> (try dsimp only)
    · split <;> (try dsimp only)
      · obtain ⟨W, HC⟩ :=
          Node.balanceNode_cases (l.insert k).1 x r W1 hr (by omega) (by omega)
        refine ⟨W, ?_, ?_⟩ <;> rcases HC with HC | ⟨H1, H2, H3 | H3⟩ <;> omega
      · exact ⟨⟨hl, hr, hhh, hb1, hb2⟩, by omega, by omega⟩
    · split <;> (try dsimp only)
      · split <;> (try dsimp only)
        · obtain ⟨W, HC⟩ :=
            Node.balanceNode_cases l x (r.insert k).1 hl W2 (by omega) (by omega)
          refine ⟨W, ?_, ?_⟩ <;> rcases HC with HC | ⟨H1, H2, H3 | H3⟩ <;> omega
        · exact ⟨⟨hl, hr, hhh, hb1, hb2⟩, by omega, by omega⟩
      · exact ⟨⟨hl, hr, hhh, hb1, hb2⟩, by omega, by omega⟩

lemma Node.delMin_none (t : Node) : t.delMin = none ↔ t = .nil := by
  cases t with
  | nil => simp [Node.delMin]
  | node l x hh r =>
    cases hml : l.delMin with
    | none => simp [Node.delMin, hml]
    | some p => simp [Node.delMin, hml]

lemma Node.delMin_spec (t : Node) (h : t.WF) :
    ∀ m t', t.delMin = some (m, t') →
      t'.WF ∧ t.height ≤ t'.height + 1 ∧ t'.height ≤ t.height ∧
      t.toList = m :: t'.toList := by
  induction t with
  | nil => intro m t' hc; simp [Node.delMin] at hc
  | node l x hh r ihl ihr =>
    intro m t' hd
    rw [Node.WF_node] at h
    obtain ⟨hl, hr, hhh, hb1, hb2⟩ := h
    have hN : Node.height (Node.node l x hh r) = hh := rfl
    have h0 : Node.height Node.nil = 0 := rfl
    simp only [Node.delMin] at hd
    cases hml : l.delMin with
    | none =>
      rw [hml] at hd
      have hlnil : l = .nil := (Node.delMin_none l).mp hml
      subst hlnil
      obtain ⟨rfl, rfl⟩ : x = m ∧ r = t' := by simpa using hd
      refine ⟨hr, ?_, ?_, ?_⟩
      · omega
      · omega
      · simp
    | some p =>
      obtain ⟨m0, l'⟩ := p
      rw [hml] at hd
      obtain ⟨rfl, rfl⟩ : m0 = m ∧ Node.balanceNode l' x r = t' := by simpa using hd
      obtain ⟨W, D1, D2, DL⟩ := ihl hl m0 l' hml
      obtain ⟨W2, HC⟩ := Node.balanceNode_cases l' x r W hr (by omega) (by omega)
      refine ⟨W2, ?_, ?_, ?_⟩
      · rcases HC with HC | ⟨H1, H2, H3 | H3⟩ <;> omega
      · rcases HC with HC | ⟨H1, H2, H3 | H3⟩ <;> omega
      · simp [Node.toList_balanceNode, DL]

lemma Node.remove_wf (t : Node) (k : Int) (h : t.WF) :
    (t.remove k).1.WF ∧ t.height ≤ (t.remove k).1.height + 1 ∧
      (t.remove k).1.height ≤ t.height := by
  induction t with
  | nil => simp [Node.remove, Node.height]
  | node l x hh r ihl ihr =>
    rw [Node.WF_node] at h
    obtain ⟨hl, hr, hhh, hb1, hb2⟩ := h
    obtain ⟨W1, A1, A2⟩ := ihl hl
    obtain ⟨W2, B1, B2⟩ := ihr hr
    have hN : Node.height (Node.node l x hh r) = hh := rfl
    have h0 : Node.height Node.nil = 0 := rfl
    simp only [Node.remove]
    split <;> (try dsimp only)
    · split <;> (try dsimp only)
      · obtain ⟨W, HC⟩ :=
          Node.balanceNode_cases (l.remove k).1 x r W1 hr (by omega) (by omega)
        refine ⟨W, ?_, ?_⟩ <;> rcases HC with HC | ⟨H1, H2, H3 | H3⟩ <;> omega
      · exact ⟨⟨hl, hr, hhh, hb1, hb2⟩, by omega, by omega⟩
    · split <;> (try dsimp only)
      · split <;> (try dsimp only)
        · obtain ⟨W, HC⟩ :=
            Node.balanceNode_cases l x (r.remove k).1 hl W2 (by omega) (by omega)
          refine ⟨W, ?_, ?_⟩ <;> rcases HC with HC | ⟨H1, H2, H3 | H3⟩ <;> omega
        · exact ⟨⟨hl, hr, hhh, hb1, hb2⟩, by omega, by omega⟩
      · rcases l with _ | ⟨a, q, sh, b⟩ <;> (try dsimp only)
        · exact ⟨hr, by omega, by omega⟩
        · have hA : Node.height (Node.node a q sh b) = sh := rfl
          cases hmr : r.delMin with
          | none =>
            dsimp only
            have hrnil : r = .nil := (Node.delMin_none r).mp hmr
            rw [hrnil] at hhh hb1 hb2
            exact ⟨hl, by omega, by omega⟩
          | some p =>
            obtain ⟨m, r'⟩ := p
            dsimp only
            obtain ⟨W, D1, D2, DL⟩ := Node.delMin_spec r hr m r' hmr
            obtain ⟨W2', HC⟩ :=
              Node.balanceNode_cases (Node.node a q sh b) m r' hl W (by omega) (by omega)
            refine ⟨W2', ?_, ?_⟩ <;> rcases HC with HC | ⟨H1, H2, H3 | H3⟩ <;> omega

lemma Node.realHeight_eq (t : Node) (h : t.WF) : t.realHeight = t.height := by
  induction t with
  | nil => rfl
  | node l x hh r ihl ihr =>
    rw [Node.WF_node] at h
    obtain ⟨hl, hr, hhh, h1, h2⟩ := h
    simp [Node.realHeight, ihl hl, ihr hr, hhh]

lemma Node.fib_height_le (t : Node) (h : t.WF) :
    Nat.fib (t.height + 2) ≤ t.toList.length + 1 := by
  induction t with
  | nil => simp [Node.height, Node.toList]
  | node l x hh r ihl ihr =>
    rw [Node.WF_node] at h
    obtain ⟨hl, hr, hhh, hb1, hb2⟩ := h
    have IL := ihl hl
    have IR := ihr hr
    simp only [Node.height_node, Node.toList_node, List.length_append, List.length_cons]
    have key : Nat.fib (max l.height r.height + 1 + 2) ≤
        l.toList.length + r.toList.length + 2 := by
      rcases le_total l.height r.height with hle | hle
      · rw [max_eq_right hle, show r.height + 1 + 2 = (r.height + 1) + 2 from rfl,
          Nat.fib_add_two]
        have m1 : Nat.fib (r.height + 1) ≤ Nat.fib (l.height + 2) :=
          Nat.fib_mono (by omega)
        have e2 : Nat.fib (r.height + 1 + 1) = Nat.fib (r.height + 2) := rfl
        omega
      · rw [max_eq_left hle, show l.height + 1 + 2 = (l.height + 1) + 2 from rfl,
          Nat.fib_add_two]
        have m1 : Nat.fib (l.height + 1) ≤ Nat.fib (r.height + 2) :=
          Nat.fib_mono (by omega)
        have e2 : Nat.fib (l.height + 1 + 1) = Nat.fib (l.height + 2) := rfl
        omega
    rw [hhh]
    omega

lemma gold_pow_le_fib (n : ℕ) : goldenRatio ^ n ≤ (Nat.fib (n + 2) : ℝ) := by
  cases n with
  | zero => simp
  | succ m =>
    have h := fib_golden_exp' m
    rw [← h]
    have e1 : (Nat.fib (m + 1 + 2) : ℝ) = 2 * Nat.fib (m + 1) + Nat.fib m := by
      rw [show m + 1 + 2 = (m + 1) + 2 from rfl, Nat.fib_add_two]
      rw [show m + 1 + 1 = m + 2 from rfl, Nat.fib_add_two]
      push_cast
      ring
    rw [e1]
    have hfib : (0:ℝ) ≤ (Nat.fib (m + 1) : ℝ) := by positivity
    nlinarith [gold_lt_two]

lemma sorted_append_iff {L1 L2 : List Int} :
    (L1 ++ L2).Sorted (· < ·) ↔
      L1.Sorted (· < ·) ∧ L2.Sorted (· < ·) ∧ ∀ a ∈ L1, ∀ b ∈ L2, a < b :=
  List.pairwise_append

lemma Node.ordered_node {l : Node} {x : Int} {hgt : Nat} {r : Node} :
    (Node.node l x hgt r).Ordered ↔
      l.Ordered ∧ r.Ordered ∧ (∀ a ∈ l.toList, a < x) ∧ ∀ b ∈ r.toList, x < b := by
  unfold Node.Ordered
  rw [Node.toList_node, sorted_append_iff]
  constructor
  · rintro ⟨h1, h2, h3⟩
    rw [List.sorted_cons] at h2
    exact ⟨h1, h2.2, fun a ha => h3 a ha x (List.mem_cons_self x _), h2.1⟩
  · rintro ⟨h1, h2, h3, h4⟩
    rw [List.sorted_cons]
    refine ⟨h1, ⟨h4, h2⟩, ?_⟩
    intro a ha b hb
    rcases List.mem_cons.mp hb with rfl | hb
    · exact h3 a ha
    · exact lt_trans (h3 a ha) (h4 b hb)

lemma Node.containsKey_iff (t : Node) (k : Int) (h : t.Ordered) :
    t.containsKey k = true ↔ k ∈ t.toList := by
  induction t with
  | nil => simp [Node.containsKey]
  | node l x hh r ihl ihr =>
    rw [Node.ordered_node] at h
    obtain ⟨hol, hor, hal, har⟩ := h
    simp only [Node.containsKey, Node.toList_node, List.mem_append, List.mem_cons]
    split
    · rename_i hkx
      rw [ihl hol]
      constructor
      · exact fun hm => Or.inl hm
      · rintro (hm | rfl | hm)
        · exact hm
        · exact absurd hkx (lt_irrefl k)
        · exact absurd (lt_trans hkx (har k hm)) (lt_irrefl k)
    · split
      · rename_i hxk
        rw [ihr hor]
        constructor
        · exact fun hm => Or.inr (Or.inr hm)
        · rintro (hm | rfl | hm)
          · exact absurd (lt_trans hxk (hal k hm)) (lt_irrefl x)
          · exact absurd hxk (lt_irrefl k)
          · exact hm
      · rename_i h1 h2
        have : k = x := le_antisymm (not_lt.mp h2) (not_lt.mp h1)
        subst this
        simp

lemma Node.containsKey_eq_decide (t : Node) (k : Int) (h : t.Ordered) :
    t.containsKey k = decide (k ∈ t.toList) := by
  cases hc : t.containsKey k with
  | false =>
    symm
    rw [decide_eq_false_iff_not]
    intro hm
    rw [← Node.containsKey_iff t k h, hc] at hm
    cases hm
  | true =>
    symm
    rw [decide_eq_true_eq]
    exact (Node.containsKey_iff t k h).mp hc

lemma Node.insert_snd (t : Node) (k : Int) :
    (t.insert k).2 = !t.containsKey k := by
  induction t with
  | nil => rfl
  | node l x hh r ihl ihr =>
    simp only [Node.insert, Node.containsKey]
    split
    · rw [← ihl]
      split <;> simp_all
    · split
      · rw [← ihr]
        split <;> simp_all
      · simp

lemma Node.remove_snd (t : Node) (k : Int) :
    (t.remove k).2 = t.containsKey k := by
  induction t with
  | nil => rfl
  | node l x hh r ihl ihr =>
    simp only [Node.remove, Node.containsKey]
    split
    · rw [← ihl]
      split <;> simp_all
    · split
      · rw [← ihr]
        split <;> simp_all
      · split
        · rfl
        · cases hmr : r.delMin with
          | none => rfl
          | some p => rfl

lemma Node.insert_of_mem (t : Node) (k : Int) (h : t.containsKey k = true) :
    t.insert k = (t, false) := by
  induction t with
  | nil => simp [Node.containsKey] at h
  | node l x hh r ihl ihr =>
    simp only [Node.containsKey] at h
    simp only [Node.insert]
    split
    · rename_i hkx
      rw [if_pos hkx] at h
      rw [ihl h]
      simp
    · rename_i hkx
      rw [if_neg hkx] at h
      split
      · rename_i hxk
        rw [if_pos hxk] at h
        rw [ihr h]
        simp
      · rfl

lemma Node.remove_of_not_mem (t : Node) (k : Int) (h : t.containsKey k = false) :
    t.remove k = (t, false) := by
  induction t with
  | nil => rfl
  | node l x hh r ihl ihr =>
    simp only [Node.containsKey] at h
    simp only [Node.remove]
    split
    · rename_i hkx
      rw [if_pos hkx] at h
      rw [ihl h]
      simp
    · rename_i hkx
      rw [if_neg hkx] at h
      split
      · rename_i hxk
        rw [if_pos hxk] at h
        rw [ihr h]
        simp
      · rename_i hxk
        rw [if_neg hxk] at h
        cases h

lemma RefSet.insert_append_lt (L1 L2 : List Int) (x k : Int) (hkx : k < x) :
    RefSet.insert (L1 ++ x :: L2) k =
      ((RefSet.insert L1 k).1 ++ x :: L2, (RefSet.insert L1 k).2) := by
  induction L1 with
  | nil => simp [RefSet.insert, hkx]
  | cons a as ih =>
    simp only [List.cons_append, RefSet.insert]
    split
    · simp
    · split
      · simp [ih]
      · simp

lemma RefSet.insert_append_ge (L1 L2 : List Int) (k : Int) (hall : ∀ a ∈ L1, a < k) :
    RefSet.insert (L1 ++ L2) k =
      (L1 ++ (RefSet.insert L2 k).1, (RefSet.insert L2 k).2) := by
  induction L1 with
  | nil => simp
  | cons a as ih =>
    have hak : a < k := hall a (List.mem_cons_self a as)
    have h1 : ¬ k < a := not_lt.mpr (le_of_lt hak)
    simp only [List.cons_append, RefSet.insert, if_neg h1, if_pos hak]
    simp [List.append_eq, ih (fun b hb => hall b (List.mem_cons_of_mem a hb))]

lemma RefSet.insert_snd_false (L : List Int) (k : Int)
    (h : (RefSet.insert L k).2 = false) : (RefSet.insert L k).1 = L := by
  induction L with
  | nil => exact absurd h (by simp [RefSet.insert])
  | cons a as ih =>
    simp only [RefSet.insert] at h ⊢
    split_ifs with h1 h2
    · rw [if_pos h1] at h
      exact absurd h (by simp)
    · rw [if_neg h1, if_pos h2] at h
      dsimp only at h ⊢
      rw [ih h]
    · rfl

lemma RefSet.mem_insert (L : List Int) (k b : Int) :
    b ∈ (RefSet.insert L k).1 ↔ b ∈ L ∨ b = k := by
  induction L with
  | nil => simp [RefSet.insert]
  | cons a as ih =>
    simp only [RefSet.insert]
    split_ifs with h1 h2
    · simp only [List.mem_cons]
      tauto
    · simp only [List.mem_cons, ih]
      tauto
    · have : k = a := le_antisymm (not_lt.mp h2) (not_lt.mp h1)
      subst this
      simp only [List.mem_cons]
      tauto

lemma RefSet.insert_sorted (L : List Int) (k : Int) (h : L.Sorted (· < ·)) :
    (RefSet.insert L k).1.Sorted (· < ·) := by
  induction L with
  | nil => simp [RefSet.insert]
  | cons a as ih =>
    rw [List.sorted_cons] at h
    obtain ⟨ha, hs⟩ := h
    simp only [RefSet.insert]
    split_ifs with h1 h2
    · rw [List.sorted_cons]
      refine ⟨?_, List.sorted_cons.mpr ⟨ha, hs⟩⟩
      intro b hb
      rcases List.mem_cons.mp hb with rfl | hb
      · exact h1
      · exact lt_trans h1 (ha b hb)
    · rw [List.sorted_cons]
      refine ⟨?_, ih hs⟩
      intro b hb
      rcases (RefSet.mem_insert as k b).mp hb with hb | rfl
      · exact ha b hb
      · exact h2
    · exact List.sorted_cons.mpr ⟨ha, hs⟩

lemma RefSet.insert_length_true (L : List Int) (k : Int)
    (h : (RefSet.insert L k).2 = true) :
    (RefSet.insert L k).1.length = L.length + 1 := by
  induction L with
  | nil => simp [RefSet.insert]
  | cons a as ih =>
    simp only [RefSet.insert] at h ⊢
    split_ifs with h1 h2
    · simp
    · rw [if_neg h1, if_pos h2] at h
      dsimp only at h ⊢
      simp [ih h]
    · rw [if_neg h1, if_neg h2] at h
      exact absurd h (by simp)

lemma RefSet.remove_append_lt (L1 L2 : List Int) (x k : Int) (hkx : k < x) :
    RefSet.remove (L1 ++ x :: L2) k =
      ((RefSet.remove L1 k).1 ++ x :: L2, (RefSet.remove L1 k).2) := by
  induction L1 with
  | nil => simp [RefSet.remove, hkx]
  | cons a as ih =>
    simp only [List.cons_append, RefSet.remove]
    split
    · simp
    · split
      · simp [ih]
      · simp

lemma RefSet.remove_append_ge (L1 L2 : List Int) (k : Int) (hall : ∀ a ∈ L1, a < k) :
    RefSet.remove (L1 ++ L2) k =
      (L1 ++ (RefSet.remove L2 k).1, (RefSet.remove L2 k).2) := by
  induction L1 with
  | nil => simp
  | cons a as ih =>
    have hak : a < k := hall a (List.mem_cons_self a as)
    have h1 : ¬ k < a := not_lt.mpr (le_of_lt hak)
    simp only [List.cons_append, RefSet.remove, if_neg h1, if_pos hak]
    simp [List.append_eq, ih (fun b hb => hall b (List.mem_cons_of_mem a hb))]

lemma RefSet.remove_snd_false (L : List Int) (k : Int)
    (h : (RefSet.remove L k).2 = false) : (RefSet.remove L k).1 = L := by
  induction L with
  | nil => rfl
  | cons a as ih =>
    simp only [RefSet.remove] at h ⊢
    split_ifs with h1 h2
    · rfl
    · rw [if_neg h1, if_pos h2] at h
      dsimp only at h ⊢
      rw [ih h]
    · rw [if_neg h1, if_neg h2] at h
      exact absurd h (by simp)

lemma RefSet.mem_remove_subset (L : List Int) (k b : Int)
    (hb : b ∈ (RefSet.remove L k).1) : b ∈ L := by
  induction L with
  | nil => simpa [RefSet.remove] using hb
  | cons a as ih =>
    simp only [RefSet.remove] at hb
    split_ifs at hb with h1 h2
    · exact hb
    · rcases List.mem_cons.mp hb with rfl | hb
      · exact List.mem_cons_self b as
      · exact List.mem_cons_of_mem a (ih hb)
    · exact List.mem_cons_of_mem a hb

lemma RefSet.remove_sorted (L : List Int) (k : Int) (h : L.Sorted (· < ·)) :
    (RefSet.remove L k).1.Sorted (· < ·) := by
  induction L with
  | nil => simpa [RefSet.remove] using h
  | cons a as ih =>
    rw [List.sorted_cons] at h
    obtain ⟨ha, hs⟩ := h
    simp only [RefSet.remove]
    split_ifs with h1 h2
    · exact List.sorted_cons.mpr ⟨ha, hs⟩
    · rw [List.sorted_cons]
      exact ⟨fun b hb => ha b (RefSet.mem_remove_subset as k b hb), ih hs⟩
    · exact hs

lemma RefSet.remove_length_true (L : List Int) (k : Int)
    (h : (RefSet.remove L k).2 = true) :
    (RefSet.remove L k).1.length + 1 = L.length := by
  induction L with
  | nil => exact absurd h (by simp [RefSet.remove])
  | cons a as ih =>
    simp only [RefSet.remove] at h ⊢
    split_ifs with h1 h2
    · rw [if_pos h1] at h
      exact absurd h (by simp)
    · rw [if_neg h1, if_pos h2] at h
      dsimp only at h ⊢
      simp only [List.length_cons]
      rw [← ih h]
    · simp

lemma RefSet.remove_insert (L : List Int) (k : Int)
    (h : (RefSet.insert L k).2 = true) :
    RefSet.remove (RefSet.insert L k).1 k = (L, true) := by
  induction L with
  | nil => simp [RefSet.insert, RefSet.remove]
  | cons a as ih =>
    simp only [RefSet.insert] at h ⊢
    split_ifs with h1 h2
    · dsimp only
      simp [RefSet.remove, lt_self_iff_false, h1]
    · rw [if_neg h1, if_pos h2] at h
      dsimp only at h ⊢
      simp only [RefSet.remove, if_neg (not_lt.mpr (le_of_lt h2)), if_pos h2]
      rw [ih h]
    · rw [if_neg h1, if_neg h2] at h
      exact absurd h (by simp)

lemma Node.delMin_toList (t : Node) :
    ∀ m t', t.delMin = some (m, t') → t.toList = m :: t'.toList := by
  induction t with
  | nil => intro m t' hc; simp [Node.delMin] at hc
  | node l x hh r ihl ihr =>
    intro m t' hd
    simp only [Node.delMin] at hd
    cases hml : l.delMin with
    | none =>
      rw [hml] at hd
      have hlnil : l = .nil := (Node.delMin_none l).mp hml
      subst hlnil
      obtain ⟨rfl, rfl⟩ : x = m ∧ r = t' := by simpa using hd
      simp
    | some p =>
      obtain ⟨m0, l'⟩ := p
      rw [hml] at hd
      obtain ⟨rfl, rfl⟩ : m0 = m ∧ Node.balanceNode l' x r = t' := by simpa using hd
      rw [Node.toList_node, Node.toList_balanceNode, ihl m0 l' hml]
      simp

lemma Node.insert_sim (t : Node) (k : Int) (ho : t.Ordered) :
    (t.insert k).1.toList = (RefSet.insert t.toList k).1 ∧
    (t.insert k).2 = (RefSet.insert t.toList k).2 := by
  induction t with
  | nil => simp [Node.insert, RefSet.insert, Node.build]
  | node l x hh r ihl ihr =>
    rw [Node.ordered_node] at ho
    obtain ⟨hol, hor, hal, har⟩ := ho
    obtain ⟨IH1, IH2⟩ := ihl hol
    obtain ⟨JH1, JH2⟩ := ihr hor
    simp only [Node.insert, Node.toList_node]
    split
    · rename_i hkx
      rw [RefSet.insert_append_lt l.toList r.toList x k hkx]
      split <;> rename_i hb
      · constructor
        · dsimp only
          rw [Node.toList_balanceNode, IH1]
        · dsimp only
          rw [← IH2, hb]
      · have hb' : (l.insert k).2 = false := by simpa using hb
        have hrs : (RefSet.insert l.toList k).2 = false := by rw [← IH2]; exact hb'
        constructor
        · dsimp only
          rw [Node.toList_node, RefSet.insert_snd_false l.toList k hrs]
        · dsimp only
          rw [hrs]
    · rename_i h1
      split
      · rename_i hxk
        have hall : ∀ a ∈ l.toList ++ [x], a < k := by
          intro a ha
          rcases List.mem_append.mp ha with ha | ha
          · exact lt_trans (hal a ha) hxk
          · rw [List.mem_singleton] at ha
            subst ha
            exact hxk
        have e : l.toList ++ x :: r.toList = (l.toList ++ [x]) ++ r.toList := by
          simp
        rw [e, RefSet.insert_append_ge (l.toList ++ [x]) r.toList k hall]
        split <;> rename_i hb
        · constructor
          · dsimp only
            rw [Node.toList_balanceNode, JH1]
            simp
          · dsimp only
            rw [← JH2, hb]
        · have hb' : (r.insert k).2 = false := by simpa using hb
          have hrs : (RefSet.insert r.toList k).2 = false := by rw [← JH2]; exact hb'
          constructor
          · dsimp only
            rw [Node.toList_node, RefSet.insert_snd_false r.toList k hrs]
            simp
          · dsimp only
            rw [hrs]
      · rename_i h2
        have hkx : k = x := le_antisymm (not_lt.mp h2) (not_lt.mp h1)
        subst hkx
        rw [RefSet.insert_append_ge l.toList (k :: r.toList) k hal]
        have hik : RefSet.insert (k :: r.toList) k = (k :: r.toList, false) := by
          simp [RefSet.insert, lt_self_iff_false]
        rw [hik]
        exact ⟨by simp, rfl⟩

lemma Node.remove_sim (t : Node) (k : Int) (ho : t.Ordered) :
    (t.remove k).1.toList = (RefSet.remove t.toList k).1 ∧
    (t.remove k).2 = (RefSet.remove t.toList k).2 := by
  induction t with
  | nil => simp [Node.remove, RefSet.remove]
  | node l x hh r ihl ihr =>
    rw [Node.ordered_node] at ho
    obtain ⟨hol, hor, hal, har⟩ := ho
    obtain ⟨IH1, IH2⟩ := ihl hol
    obtain ⟨JH1, JH2⟩ := ihr hor
    simp only [Node.remove, Node.toList_node]
    split
    · rename_i hkx
      rw [RefSet.remove_append_lt l.toList r.toList x k hkx]
      split <;> rename_i hb
      · constructor
        · dsimp only
          rw [Node.toList_balanceNode, IH1]
        · dsimp only
          rw [← IH2, hb]
      · have hb' : (l.remove k).2 = false := by simpa using hb
        have hrs : (RefSet.remove l.toList k).2 = false := by rw [← IH2]; exact hb'
        constructor
        · dsimp only
          rw [Node.toList_node, RefSet.remove_snd_false l.toList k hrs]
        · dsimp only
          rw [hrs]
    · rename_i h1
      split
      · rename_i hxk
        have hall : ∀ a ∈ l.toList ++ [x], a < k := by
          intro a ha
          rcases List.mem_append.mp ha with ha | ha
          · exact lt_trans (hal a ha) hxk
          · rw [List.mem_singleton] at ha
            subst ha
            exact hxk
        have e : l.toList ++ x :: r.toList = (l.toList ++ [x]) ++ r.toList := by
          simp
        rw [e, RefSet.remove_append_ge (l.toList ++ [x]) r.toList k hall]
        split <;> rename_i hb
        · constructor
          · dsimp only
            rw [Node.toList_balanceNode, JH1]
            simp
          · dsimp only
            rw [← JH2, hb]
        · have hb' : (r.remove k).2 = false := by simpa using hb
          have hrs : (RefSet.remove r.toList k).2 = false := by rw [← JH2]; exact hb'
          constructor
          · dsimp only
            rw [Node.toList_node, RefSet.remove_snd_false r.toList k hrs]
            simp
          · dsimp only
            rw [hrs]
      · rename_i h2
        have hkx : k = x := le_antisymm (not_lt.mp h2) (not_lt.mp h1)
        subst hkx
        rw [RefSet.remove_append_ge l.toList (k :: r.toList) k hal]
        have hik : RefSet.remove (k :: r.toList) k = (r.toList, true) := by
          simp [RefSet.remove, lt_self_iff_false]
        rw [hik]
        rcases l with _ | ⟨a, q, sh, b⟩
        · exact ⟨by simp, rfl⟩
        · cases hmr : r.delMin with
          | none =>
            have hrnil : r = .nil := (Node.delMin_none r).mp hmr
            subst hrnil
            exact ⟨by simp, rfl⟩
          | some p =>
            obtain ⟨m, r'⟩ := p
            have DL := Node.delMin_toList r m r' hmr
            constructor
            · dsimp only
              rw [Node.toList_balanceNode, DL]
            · rfl

lemma Tree.new_inv : Tree.new.Inv := ⟨trivial, List.sorted_nil, rfl⟩

lemma Tree.applyOp_sim (t : Tree) (s : List Int) (o : Op)
    (h1 : t.root.toList = s) (h2 : t.card = s.length) (h3 : t.root.WF)
    (h4 : s.Sorted (· < ·)) :
    (t.applyOp o).1.root.toList = (RefSet.applyOp s o).1 ∧
    (t.applyOp o).1.card = (RefSet.applyOp s o).1.length ∧
    (t.applyOp o).1.root.WF ∧
    (RefSet.applyOp s o).1.Sorted (· < ·) ∧
    (t.applyOp o).2 = (RefSet.applyOp s o).2 := by
  subst h1
  have ho : t.root.Ordered := h4
  cases o with
  | insert k =>
    obtain ⟨S1, S2⟩ := Node.insert_sim t.root k ho
    have hwf := (Node.insert_wf t.root k h3).1
    have hsorted := RefSet.insert_sorted t.root.toList k h4
    simp only [Tree.applyOp, Tree.insert, RefSet.applyOp]
    cases hb : (t.root.insert k).2 with
    | true =>
      have hrs : (RefSet.insert t.root.toList k).2 = true := by rw [← S2, hb]
      have hlen := RefSet.insert_length_true t.root.toList k hrs
      simp only [hb, if_true]
      exact ⟨S1, by rw [hlen, h2], hwf, hsorted, by rw [hrs]⟩
    | false =>
      have hrs : (RefSet.insert t.root.toList k).2 = false := by rw [← S2, hb]
      have heq := RefSet.insert_snd_false t.root.toList k hrs
      simp only [hb, Bool.false_eq_true, if_false]
      exact ⟨by rw [heq], by rw [heq, h2], h3, hsorted, by rw [hrs]⟩
  | remove k =>
    obtain ⟨S1, S2⟩ := Node.remove_sim t.root k ho
    have hwf := (Node.remove_wf t.root k h3).1
    have hsorted := RefSet.remove_sorted t.root.toList k h4
    simp only [Tree.applyOp, Tree.remove, RefSet.applyOp]
    cases hb : (t.root.remove k).2 with
    | true =>
      have hrs : (RefSet.remove t.root.toList k).2 = true := by rw [← S2, hb]
      have hlen := RefSet.remove_length_true t.root.toList k hrs
      simp only [hb, if_true]
      exact ⟨S1, by omega, hwf, hsorted, by rw [hrs]⟩
    | false =>
      have hrs : (RefSet.remove t.root.toList k).2 = false := by rw [← S2, hb]
      have heq := RefSet.remove_snd_false t.root.toList k hrs
      simp only [hb, Bool.false_eq_true, if_false]
      exact ⟨by rw [heq], by rw [heq, h2], h3, hsorted, by rw [hrs]⟩
  | contains k =>
    refine ⟨rfl, h2, h3, h4, ?_⟩
    exact Node.containsKey_eq_decide t.root k ho

lemma Tree.runOps_sim (ops : List Op) :
    ∀ (t : Tree) (s : List Int),
      t.root.toList = s → t.card = s.length → t.root.WF → s.Sorted (· < ·) →
      Tree.trace t ops = RefSet.trace s ops ∧
      (Tree.runOps t ops).root.toList = RefSet.runOps s ops ∧
      (Tree.runOps t ops).card = (RefSet.runOps s ops).length ∧
      (Tree.runOps t ops).root.WF ∧
      (RefSet.runOps s ops).Sorted (· < ·) := by
  induction ops with
  | nil =>
    intro t s h1 h2 h3 h4
    exact ⟨rfl, h1, h2, h3, h4⟩
  | cons o os ih =>
    intro t s h1 h2 h3 h4
    obtain ⟨S1, S2, S3, S4, S5⟩ := Tree.applyOp_sim t s o h1 h2 h3 h4
    obtain ⟨T1, T2, T3, T4, T5⟩ := ih (t.applyOp o).1 (RefSet.applyOp s o).1 S1 S2 S3 S4
    refine ⟨?_, T2, T3, T4, T5⟩
    simp only [Tree.trace, RefSet.trace, T1, S5, Tree.size, S2]

lemma Tree.runOps_inv (ops : List Op) :
    (Tree.runOps Tree.new ops).Inv := by
  obtain ⟨_, T2, T3, T4, T5⟩ :=
    Tree.runOps_sim ops Tree.new [] rfl rfl trivial List.sorted_nil
  refine ⟨T4, ?_, ?_⟩
  · show (Tree.runOps Tree.new ops).root.toList.Sorted (· < ·)
    rw [T2]
    exact T5
  · rw [T2, T3]

lemma Tree.applyOp_inv (t : Tree) (o : Op) (h : t.Inv) : (t.applyOp o).1.Inv := by
  obtain ⟨hwf, ho, hc⟩ := h
  obtain ⟨S1, S2, S3, S4, _⟩ := Tree.applyOp_sim t t.root.toList o rfl hc hwf ho
  refine ⟨S3, ?_, ?_⟩
  · show ((t.applyOp o).1.root.toList).Sorted (· < ·)
    rw [S1]
    exact S4
  · rw [S2, S1]

lemma countSucc_spec (ops : List Op) :
    ∀ t : Tree, t.Inv →
      (Tree.runOps t ops).card + (countSucc t ops).2 =
        t.card + (countSucc t ops).1 := by
  induction ops with
  | nil => intro t h; rfl
  | cons o os ih =>
    intro t h
    have hinv := Tree.applyOp_inv t o h
    have IH := ih (t.applyOp o).1 hinv
    simp only [Tree.runOps, countSucc]
    cases o with
    | insert k =>
      cases hb : (t.root.insert k).2 with
      | true =>
        have ht : t.applyOp (Op.insert k) = (⟨(t.root.insert k).1, t.card + 1⟩, true) := by
          simp [Tree.applyOp, Tree.insert, hb]
        rw [ht] at IH ⊢
        dsimp only at IH ⊢
        omega
      | false =>
        have ht : t.applyOp (Op.insert k) = (t, false) := by
          simp [Tree.applyOp, Tree.insert, hb]
        rw [ht] at IH ⊢
        dsimp only at IH ⊢
        omega
    | remove k =>
      cases hb : (t.root.remove k).2 with
      | true =>
        have ht : t.applyOp (Op.remove k) = (⟨(t.root.remove k).1, t.card - 1⟩, true) := by
          simp [Tree.applyOp, Tree.remove, hb]
        have hck : t.root.containsKey k = true := by rw [← Node.remove_snd, hb]
        have hmem : k ∈ t.root.toList := (Node.containsKey_iff _ _ h.2.1).mp hck
        have hpos : 0 < t.root.toList.length :=
          List.length_pos.mpr (List.ne_nil_of_mem hmem)
        have hc1 : t.card = t.root.toList.length := h.2.2
        rw [ht] at IH ⊢
        dsimp only at IH ⊢
        omega
      | false =>
        have ht : t.applyOp (Op.remove k) = (t, false) := by
          simp [Tree.applyOp, Tree.remove, hb]
        rw [ht] at IH ⊢
        dsimp only at IH ⊢
        omega
    | contains k =>
      have ht : t.applyOp (Op.contains k) = (t, t.contains k) := rfl
      rw [ht] at IH ⊢
      dsimp only at IH ⊢
      cases hq : t.contains k <;> (try dsimp only) <;> omega

/-- C1: for every finite sequence of insert, remove and contains
operations, the tree's observable behaviour — each operation's boolean
result, `size()` after each step (both recorded by `Tree.trace`), and the
final `values()` sequence — is identical to that of the reference
ordered-set (`RefSet`, the model of `std::set`) processing the same
sequence from its own empty state. -/
theorem claim_C1_reference_equivalence (ops : List Op) :
    Tree.trace Tree.new ops = RefSet.trace [] ops ∧
    (Tree.runOps Tree.new ops).values = RefSet.runOps [] ops := by
  obtain ⟨T1, T2, _, _, _⟩ :=
    Tree.runOps_sim ops Tree.new [] rfl rfl trivial List.sorted_nil
  exact ⟨T1, T2⟩

/-- C2: after every sequence of insert and remove (and contains)
operations, with n stored keys, `fib (height + 2) ≤ n + 1` and hence the
structural height is at most `log_phi (n + 1)`, i.e. `c * log2 (n + 1)`
for the AVL constant `c = 1 / log2 phi ≈ 1.4404`; in particular
ascending-order insertion, a special case of the quantified operation
sequence, cannot produce linear height. -/
theorem claim_C2_height_bound (ops : List Op) :
    Nat.fib ((Tree.runOps Tree.new ops).root.realHeight + 2) ≤
      (Tree.runOps Tree.new ops).size + 1 ∧
    ((Tree.runOps Tree.new ops).root.realHeight : ℝ) ≤
      Real.logb goldenRatio (((Tree.runOps Tree.new ops).size : ℝ) + 1) := by
  obtain ⟨hwf, ho, hc⟩ := Tree.runOps_inv ops
  have hrh : (Tree.runOps Tree.new ops).root.realHeight =
      (Tree.runOps Tree.new ops).root.height := Node.realHeight_eq _ hwf
  have hfib := Node.fib_height_le _ hwf
  have h1 : Nat.fib ((Tree.runOps Tree.new ops).root.realHeight + 2) ≤
      (Tree.runOps Tree.new ops).size + 1 := by
    rw [hrh]
    show _ ≤ (Tree.runOps Tree.new ops).card + 1
    rw [hc]
    exact hfib
  refine ⟨h1, ?_⟩
  set n := (Tree.runOps Tree.new ops).size with hn
  set hgt := (Tree.runOps Tree.new ops).root.realHeight with hhgt
  have hphi : goldenRatio ^ hgt ≤ ((n : ℝ) + 1) := by
    calc goldenRatio ^ hgt ≤ (Nat.fib (hgt + 2) : ℝ) := gold_pow_le_fib hgt
    _ ≤ ((n : ℝ) + 1) := by exact_mod_cast h1
  have hgold : (1:ℝ) < goldenRatio := one_lt_gold
  have hlog := Real.log_le_log (by positivity) hphi
  rw [Real.log_pow] at hlog
  simp only [Real.logb]
  rw [le_div_iff₀ (Real.log_pos hgold)]
  exact hlog

/-- C3: inserting an already stored key returns false and leaves the tree
unchanged — literally the same tree object, hence the same size, the same
contains answer for every key, and the same values sequence. -/
theorem claim_C3_duplicate_insert (t : Tree) (k : Int) (h : t.contains k = true) :
    t.insert k = (t, false) ∧
    (t.insert k).1.size = t.size ∧
    (∀ kk : Int, (t.insert k).1.contains kk = t.contains kk) ∧
    (t.insert k).1.values = t.values := by
  have he : t.insert k = (t, false) := by
    unfold Tree.insert
    rw [Node.insert_of_mem t.root k h]
    simp
  exact ⟨he, by rw [he], fun kk => by rw [he], by rw [he]⟩

/-- Witness for C3 at the concrete state that stores only key 1 (the
double-insert scenario of the test suite). -/
theorem claim_C3_witness :
    (Tree.new.insert 1).1.contains 1 = true ∧
    ((Tree.new.insert 1).1.insert 1 = ((Tree.new.insert 1).1, false) ∧
     ((Tree.new.insert 1).1.insert 1).1.size = (Tree.new.insert 1).1.size ∧
     (∀ kk : Int, ((Tree.new.insert 1).1.insert 1).1.contains kk =
        (Tree.new.insert 1).1.contains kk) ∧
     ((Tree.new.insert 1).1.insert 1).1.values = (Tree.new.insert 1).1.values) :=
  ⟨by decide, claim_C3_duplicate_insert (Tree.new.insert 1).1 1 (by decide)⟩

/-- C4: removing a key that is not stored (including from the empty tree)
returns false and leaves the tree unchanged — literally the same tree
object, hence the same size, contains answers, and values sequence. -/
theorem claim_C4_absent_remove (t : Tree) (k : Int) (h : t.contains k = false) :
    t.remove k = (t, false) ∧
    (t.remove k).1.size = t.size ∧
    (∀ kk : Int, (t.remove k).1.contains kk = t.contains kk) ∧
    (t.remove k).1.values = t.values := by
  have he : t.remove k = (t, false) := by
    unfold Tree.remove
    rw [Node.remove_of_not_mem t.root k h]
    simp
  exact ⟨he, by rw [he], fun kk => by rw [he], by rw [he]⟩

/-- Witness for C4 at the empty tree (the remove-from-empty-tree
scenario of the test suite). -/
theorem claim_C4_witness :
    Tree.new.contains 1 = false ∧
    (Tree.new.remove 1 = (Tree.new, false) ∧
     (Tree.new.remove 1).1.size = Tree.new.size ∧
     (∀ kk : Int, (Tree.new.remove 1).1.contains kk = Tree.new.contains kk) ∧
     (Tree.new.remove 1).1.values = Tree.new.values) :=
  ⟨by decide, claim_C4_absent_remove Tree.new 1 (by decide)⟩

/-- C5: after every operation sequence from the empty tree, `values()` is
strictly ascending and duplicate-free, and its elements are exactly the
stored keys (those for which `contains` answers true). -/
theorem claim_C5_values_sorted (ops : List Op) :
    ((Tree.runOps Tree.new ops).values).Sorted (· < ·) ∧
    ((Tree.runOps Tree.new ops).values).Nodup ∧
    ∀ k : Int, k ∈ (Tree.runOps Tree.new ops).values ↔
      (Tree.runOps Tree.new ops).contains k = true := by
  obtain ⟨hwf, ho, hc⟩ := Tree.runOps_inv ops
  have hs : ((Tree.runOps Tree.new ops).values).Sorted (· < ·) := ho
  refine ⟨hs, hs.nodup, fun k => ?_⟩
  exact (Node.containsKey_iff _ k ho).symm

/-- C6: after every operation sequence from the empty tree, `size()`
equals the number of insert calls that returned true minus the number of
remove calls that returned true, and the latter never exceeds the
former. -/
theorem claim_C6_size_counts (ops : List Op) :
    (Tree.runOps Tree.new ops).size =
      (countSucc Tree.new ops).1 - (countSucc Tree.new ops).2 ∧
    (countSucc Tree.new ops).2 ≤ (countSucc Tree.new ops).1 := by
  have h := countSucc_spec ops Tree.new Tree.new_inv
  have h0 : Tree.new.card = 0 := rfl
  have hsz : (Tree.runOps Tree.new ops).size = (Tree.runOps Tree.new ops).card := rfl
  constructor <;> omega

/-- C7: insert followed by remove of the same, previously absent key is
an observable round-trip: the values sequence, the size, and every
contains answer are restored (the hypothesis `Ordered` holds for every
reachable tree state). -/
theorem claim_C7_insert_remove_roundtrip (t : Tree) (k : Int)
    (ho : t.root.Ordered) (h : t.contains k = false) :
    (((t.insert k).1.remove k).1.values = t.values) ∧
    (((t.insert k).1.remove k).1.size = t.size) ∧
    (∀ kk : Int, ((t.insert k).1.remove k).1.contains kk = t.contains kk) := by
  have hbI : (t.root.insert k).2 = true := by
    rw [Node.insert_snd]
    have hq : t.root.containsKey k = false := h
    rw [hq]
    rfl
  obtain ⟨S1, S2⟩ := Node.insert_sim t.root k ho
  have hrsI : (RefSet.insert t.root.toList k).2 = true := by rw [← S2, hbI]
  have htI : t.insert k = (⟨(t.root.insert k).1, t.card + 1⟩, true) := by
    unfold Tree.insert
    simp [hbI]
  have ht1o : ((t.root.insert k).1).Ordered := by
    show ((t.root.insert k).1.toList).Sorted (· < ·)
    rw [S1]
    exact RefSet.insert_sorted _ _ ho
  obtain ⟨R1, R2⟩ := Node.remove_sim (t.root.insert k).1 k ht1o
  have hround := RefSet.remove_insert t.root.toList k hrsI
  have hbR : ((t.root.insert k).1.remove k).2 = true := by
    rw [R2, S1, hround]
  have hR1 : ((t.root.insert k).1.remove k).1.toList = t.root.toList := by
    rw [R1, S1, hround]
  have hRo : (((t.root.insert k).1.remove k).1).Ordered := by
    show (((t.root.insert k).1.remove k).1.toList).Sorted (· < ·)
    rw [hR1]
    exact ho
  rw [htI]
  dsimp only
  have htR : (Tree.mk (t.root.insert k).1 (t.card + 1)).remove k =
      (⟨((t.root.insert k).1.remove k).1, t.card + 1 - 1⟩, true) := by
    unfold Tree.remove
    simp [hbR]
  rw [htR]
  dsimp only
  refine ⟨?_, ?_, ?_⟩
  · show ((t.root.insert k).1.remove k).1.toList = t.root.toList
    exact hR1
  · show t.card + 1 - 1 = t.card
    omega
  · intro kk
    show ((t.root.insert k).1.remove k).1.containsKey kk = t.root.containsKey kk
    rw [Node.containsKey_eq_decide _ _ hRo, Node.containsKey_eq_decide _ _ ho, hR1]

/-- Witness for C7 at the empty tree and key 0 (remove-after-insert of
the only key leaves the tree observably empty). -/
theorem claim_C7_witness :
    Tree.new.root.Ordered ∧ Tree.new.contains 0 = false ∧
    (((Tree.new.insert 0).1.remove 0).1.values = Tree.new.values ∧
     ((Tree.new.insert 0).1.remove 0).1.size = Tree.new.size ∧
     ∀ kk : Int, ((Tree.new.insert 0).1.remove 0).1.contains kk =
        Tree.new.contains kk) :=
  ⟨List.sorted_nil, by decide,
    claim_C7_insert_remove_roundtrip Tree.new 0 List.sorted_nil (by decide)⟩

/-- C8: every operation of the embedded interface is a total function;
in particular a no-op insert or remove is signalled exactly by the
boolean result: insert returns the negation of membership and remove
returns membership, for every key and every tree value. -/
theorem claim_C8_totality (t : Tree) (k : Int) :
    (t.insert k).2 = !t.contains k ∧ (t.remove k).2 = t.contains k := by
  constructor
  · show (t.insert k).2 = !t.root.containsKey k
    rw [← Node.insert_snd]
    unfold Tree.insert
    cases hb : (t.root.insert k).2 <;> simp [hb]
  · show (t.remove k).2 = t.root.containsKey k
    rw [← Node.remove_snd]
    unfold Tree.remove
    cases hb : (t.root.remove k).2 <;> simp [hb]

/-- C9: the observer operations `empty`, `size`, `contains` and `values`
never modify the tree: running any sequence of them leaves the tree
state unchanged. -/
theorem claim_C9_observers_pure (t : Tree) (qs : List ObsOp) :
    Tree.runObs t qs = t := by
  induction qs with
  | nil => rfl
  | cons o os ih => cases o <;> exact ih

/-- C10: the tree is deterministic — two runs of the same operation
sequence on two freshly constructed trees produce identical traces and
identical final values sequences (the embedding is a pure function, so
this holds definitionally). -/
theorem claim_C10_determinism (ops : List Op) :
    Tree.trace Tree.new ops = Tree.trace Tree.new ops ∧
    (Tree.runOps Tree.new ops).values = (Tree.runOps Tree.new ops).values :=
  ⟨rfl, rfl⟩

end TreesTest
